import Mathlib

/-!
Verification of the GitHub contributors crawler against its specification.

The Lean definitions below are a shallow embedding of the Python sources:

* `utils.py`      — `is_valid_email`, `parse_repo_url`, `clean_blog_url`
* `config.py`     — `FAKE_EMAIL_PATTERNS`
* `data_handler.py` — `get_list_of_repo_urls_from_readme`, `save_to_excel`
* `github_api.py` — `get_commits_from_events`, `get_user_profile`,
                    `get_commit_email_from_repo`, `_extract_email_from_repo_commits`
* `crawler.py`    — `filter_contributors_for_repo` (contributor filtering and the
                    commit-email discovery chain, including the pinned-repo fallback)

Remote HTTP responses are modelled as explicit environment values handed to the
functions; the network and rate-limit sleeps are irrelevant to the verified
properties and have no computational content here.
-/

/-! ## Generic string helpers (Python `in`, `startswith`, `str.replace` on a fixed pattern) -/

/-- Boolean test that `p` is a prefix of the second list (Python `str.startswith`
at the character-list level). -/
def leadsWith : List Char → List Char → Bool
  | [], _ => true
  | _ :: _, [] => false
  | p :: ps, c :: cs => (p == c) && leadsWith ps cs

/-- Python substring containment `sub in s`, on character lists. -/
def strHasSub : List Char → List Char → Bool
  | [], sub => leadsWith sub []
  | c :: rest, sub => leadsWith sub (c :: rest) || strHasSub rest sub

/-- Python `str.lower()` (ASCII), implemented structurally so that concrete
instances reduce in the kernel. -/
def pyLower (s : String) : String :=
  String.mk (s.data.map Char.toLower)

/-- Split a character list on a single-character separator; mirrors Python
`str.split(sep)` for a one-character `sep` (always at least one chunk). -/
def splitOnChar (sep : Char) : List Char → List (List Char)
  | [] => [[]]
  | c :: rest =>
    let r := splitOnChar sep rest
    if c = sep then [] :: r
    else
      match r with
      | h :: t => (c :: h) :: t
      | [] => [[c]]

/-- Prepend a character to the first chunk of a chunk list. -/
def consToHead (c : Char) : List (List Char) → List (List Char)
  | h :: t => (c :: h) :: t
  | [] => [[c]]

/-- Split a character list on the literal separator `"://"`, leftmost and
non-overlapping, as Python `str.split("://")` does. -/
def splitOnSchemeSep : List Char → List (List Char)
  | ':' :: '/' :: '/' :: rest => [] :: splitOnSchemeSep rest
  | c :: rest => consToHead c (splitOnSchemeSep rest)
  | [] => [[]]

/-! ## `config.py` -/

/-- `config.FAKE_EMAIL_PATTERNS`: substrings identifying fake emails. -/
def FAKE_EMAIL_PATTERNS : List String :=
  ["noreply", "no-reply", "donotreply", "users.noreply.github.com",
   "localhost", "example.com", "test.com"]

/-! ## `utils.py` -/

/-- Python `email.split('@')[-1]`: the portion after the last `@`
(the whole string when no `@` is present). -/
def afterLastAt (email : String) : String :=
  String.mk ((splitOnChar '@' email.data).getLastD [])

/-- `utils.is_valid_email`: reject empty strings, reject any email whose
lowercasing contains a configured fake pattern, otherwise require an `@`
and a `.` after the last `@`. -/
def is_valid_email (email : String) : Bool :=
  if email = "" then false
  else if FAKE_EMAIL_PATTERNS.any (fun p => strHasSub (pyLower email).data p.data) then false
  else email.data.contains '@' && (afterLastAt email).data.contains '.'

/-- `utils.clean_blog_url`: prefix `https://` when the value is truthy and does
not start with `http`; `None` (modelled `none`) and `""` pass through. -/
def clean_blog_url (blog : Option String) : Option String :=
  match blog with
  | none => none
  | some b =>
    if b ≠ "" ∧ leadsWith "http".data b.data = false then some ("https://" ++ b) else some b

/-- Python `path.strip('/')` followed by `split('/')`, acting on the list of
segments: drop the empty segments produced by leading/trailing slashes. -/
def stripEmptyEnds (l : List (List Char)) : List (List Char) :=
  ((l.dropWhile (· = [])).reverse.dropWhile (· = [])).reverse

/-- `utils.parse_repo_url`: accept only `http(s)://github.com/owner/repo`
(exactly two path segments after stripping outer slashes); the Python
function returns `(None, None)` on rejection, modelled as `none`. -/
def parse_repo_url (url : String) : Option (String × String) :=
  match splitOnSchemeSep url.data with
  | [scheme, rest] =>
    if scheme = "http".data ∨ scheme = "https".data then
      match splitOnChar '/' rest with
      | host :: pathParts =>
        if host = "github.com".data then
          match stripEmptyEnds pathParts with
          | [o, r] => some (String.mk o, String.mk r)
          | _ => none
        else none
      | [] => none
    else none
  | _ => none

/-! ## `data_handler.py` — README link extraction

`get_list_of_repo_urls_from_readme` runs
`re.findall(r'https?://github\.com/[\w\.-]+/[\w\.-]+', readme)` and then keeps
every match whose parsed `owner/repo`, lowercased, differs from the literal
`f"{owner}/{repo}"` argument.  The regex scan is modelled character by
character: the pattern has no backtracking (its character classes exclude `/`),
so matching is maximal munch. -/

/-- A character of the regex class `[\w\.-]` (ASCII reading of `\w`). -/
def isUrlChar (c : Char) : Bool :=
  c.isAlphanum || c == '_' || c == '.' || c == '-'

/-- Drop the literal prefix `p` from `s`, or fail. -/
def dropPfx : List Char → List Char → Option (List Char)
  | [], s => some s
  | _ :: _, [] => none
  | p :: ps, c :: cs => if p = c then dropPfx ps cs else none

/-- Match `[\w\.-]+/[\w\.-]+` at the head of `r1`; `pre` is the already-matched
URL prefix.  Returns the whole match and the unconsumed remainder. -/
def matchOwnerRepo (pre r1 : List Char) : Option (List Char × List Char) :=
  let o := r1.takeWhile isUrlChar
  let r2 := r1.dropWhile isUrlChar
  if o = [] then none
  else
    match r2 with
    | '/' :: r3 =>
      let n := r3.takeWhile isUrlChar
      if n = [] then none
      else some (pre ++ o ++ '/' :: n, r3.dropWhile isUrlChar)
    | _ => none

/-- Match the full regex `https?://github\.com/[\w\.-]+/[\w\.-]+` at the head
of `cs` (the greedy `s?` tries `https` before `http`). -/
def matchGithubUrl (cs : List Char) : Option (List Char × List Char) :=
  match dropPfx "https://github.com/".data cs with
  | some r1 => matchOwnerRepo "https://github.com/".data r1
  | none =>
    match dropPfx "http://github.com/".data cs with
    | some r1 => matchOwnerRepo "http://github.com/".data r1
    | none => none

/-- Fuelled scan implementing `re.findall`: try a match at every position,
left to right, resuming after each match.  A successful match always consumes
at least one character, so fuel `cs.length` is sufficient. -/
def scanUrlsF : Nat → List Char → List (List Char)
  | 0, _ => []
  | _, [] => []
  | fuel + 1, c :: rest =>
    match matchGithubUrl (c :: rest) with
    | some (m, r) => m :: scanUrlsF fuel r
    | none => scanUrlsF fuel rest

/-- `re.findall(r'https?://github\.com/[\w\.-]+/[\w\.-]+', readme)`. -/
def findall_github_urls (readme : String) : List String :=
  (scanUrlsF readme.data.length readme.data).map (fun cs => String.mk cs)

/-- `DataHandler.get_list_of_repo_urls_from_readme`: keep the found URLs whose
parsed `owner/repo` — lowercased — differs from the literal (not lowercased)
`owner ++ "/" ++ repo` argument; an unparseable URL yields the truthy string
`"None/None"` (Python `f"{None}/{None}"`) and is kept. -/
def get_list_of_repo_urls_from_readme (readme owner repo : String) : List String :=
  let urls := findall_github_urls readme
  let current_repo := owner ++ "/" ++ repo
  urls.filter (fun url =>
    let target :=
      match parse_repo_url url with
      | some (o, n) => o ++ "/" ++ n
      | none => "None/None"
    decide (target ≠ "") && decide (pyLower target ≠ current_repo))

/-! ## `data_handler.py` — `save_to_excel` merge

A DataFrame row of the `All Contributors` sheet is modelled as a `username`
plus the remaining cells (opaque to the merge, which keys on `username` only).
The inputs of one run are: the rows already in the active target file
(`existing`, empty when the file is missing or unreadable), the usernames
collected from the other workbooks of `check_directory` (`dirUsers`), and the
freshly computed batch.  Whether the multi-sheet write raises is modelled by
the `writeOk` flag of the environment. -/

structure XRow where
  username : String
  rest : List String
deriving DecidableEq

/-- Pandas `drop_duplicates(subset=['username'], keep='first')`:
keep each row whose username was not seen earlier in the list. -/
def dedupGo (seen : List String) : List XRow → List XRow
  | [] => []
  | r :: rows =>
    if r.username ∈ seen then dedupGo seen rows
    else r :: dedupGo (r.username :: seen) rows

/-- Deduplicate a row list by username, first occurrence wins. -/
def dedupByUsername (rows : List XRow) : List XRow :=
  dedupGo [] rows

/-- Steps 1–5 of `save_to_excel` plus the final safety deduplication:
returns the combined `All Contributors` row set together with
`duplicates_found` (the new usernames rejected as already present). -/
def saveCore (existing : List XRow) (dirUsers : List String) (batch : List XRow) :
    List XRow × List String :=
  let newDf := dedupByUsername batch
  let exclusion := dirUsers ++ existing.map (·.username)
  let dups := (newDf.map (·.username)).filter (fun u => decide (u ∈ exclusion))
  let newDf2 :=
    if dups = [] then newDf
    else newDf.filter (fun r => decide (r.username ∉ exclusion))
  let combined := existing ++ newDf2
  (dedupByUsername combined, dups)

/-- Python `filename.replace('.xlsx', '_backup.csv')`, specialised to that
fixed pattern: left-to-right, non-overlapping replacement. -/
def replaceXlsxChars : List Char → List Char
  | '.' :: 'x' :: 'l' :: 's' :: 'x' :: rest => "_backup.csv".data ++ replaceXlsxChars rest
  | c :: cs => c :: replaceXlsxChars cs
  | [] => []

/-- The CSV fallback filename of `save_to_excel`. -/
def csvName (filename : String) : String :=
  String.mk (replaceXlsxChars filename.data)

/-- Observable outcome of one `save_to_excel` call: nothing written (empty
batch), the multi-sheet workbook (with the `Duplicates Filtered` sheet present
exactly when `duplicates_found` is non-empty), or the CSV fallback written when
the workbook write raised. -/
inductive SaveOutcome where
  | skipped
  | excel (fname : String) (rows : List XRow) (dupSheet : Option (List String))
  | csvFallback (fname : String) (rows : List XRow)
deriving DecidableEq

/-- `DataHandler.save_to_excel`. -/
def save_to_excel (writeOk : Bool) (existing : List XRow) (dirUsers : List String)
    (batch : List XRow) (filename : String) : SaveOutcome :=
  if batch = [] then .skipped
  else
    let res := saveCore existing dirUsers batch
    if writeOk then .excel filename res.1 (if res.2 = [] then none else some res.2)
    else .csvFallback (csvName filename) res.1

/-- The `All Contributors` row set a `save_to_excel` call persisted, if any. -/
def writtenRows : SaveOutcome → Option (List XRow)
  | .skipped => none
  | .excel _ rows _ => some rows
  | .csvFallback _ rows => some rows

/-- The store evolution of one run as seen by the next run: an empty batch
writes nothing (the target file is untouched), otherwise the target file now
holds the combined row set. -/
def runStore (dirUsers : List String) (store batch : List XRow) : List XRow :=
  if batch = [] then store else (saveCore store dirUsers batch).1

/-! ## `github_api.py` — `get_commits_from_events`

An event of the public feed carries its type, its `created_at` timestamp
(an integer time, seconds or days — only the order matters) and the length of
`payload.commits`.  The feed is the list of pages the server would return;
the function requests pages 1, 2, 3 only, breaks on an empty page, and while
scanning a page adds the commit count of every push event at or after the
cutoff; the first push event strictly older than the cutoff makes it return
the accumulated total at once.  `cutoff` (now minus 365 days) is passed
explicitly since it is derived from the wall clock. -/

structure EventRec where
  typ : String
  created_at : Int
  commitCount : Nat
deriving DecidableEq

/-- Scan one page: returns the new accumulator and whether the early
`return total_commits` was taken (first out-of-window push event). -/
def scanEvents (cutoff : Int) : List EventRec → Nat → Nat × Bool
  | [], acc => (acc, false)
  | e :: rest, acc =>
    if e.typ = "PushEvent" then
      if cutoff ≤ e.created_at then scanEvents cutoff rest (acc + e.commitCount)
      else (acc, true)
    else scanEvents cutoff rest acc

/-- Scan successive pages (`for page in range(1, 4)` supplies at most three),
stopping on an empty page or on the early return. -/
def scanPages (cutoff : Int) : List (List EventRec) → Nat → Nat
  | [], acc => acc
  | pg :: rest, acc =>
    if pg = [] then acc
    else
      let r := scanEvents cutoff pg acc
      if r.2 then r.1 else scanPages cutoff rest r.1

/-- `GitHubAPIClient.get_commits_from_events`. -/
def get_commits_from_events (cutoff : Int) (pages : List (List EventRec)) : Nat :=
  scanPages cutoff (pages.take 3) 0

/-- The event stream the scan can actually see: the first three pages,
concatenated, cut off at the first empty page. -/
def effStream : List (List EventRec) → List EventRec
  | [] => []
  | pg :: rest => if pg = [] then [] else pg ++ effStream rest

/-- Total commit count of the in-window push events of a list. -/
def pushSum (cutoff : Int) (es : List EventRec) : Nat :=
  (es.map (fun e =>
    if e.typ = "PushEvent" ∧ cutoff ≤ e.created_at then e.commitCount else 0)).sum

/-- Commit total of all in-window push events of the whole feed: the true
in-window commit count available from the event feed. -/
def trueWindowCount (cutoff : Int) (pages : List (List EventRec)) : Nat :=
  pushSum cutoff pages.flatten

/-- The feed is in reverse chronological order (newest first), checked on
adjacent events. -/
def newestFirst : List EventRec → Bool
  | [] => true
  | [_] => true
  | a :: b :: rest => decide (b.created_at ≤ a.created_at) && newestFirst (b :: rest)

/-! ## `github_api.py` — `get_user_profile` -/

/-- The JSON fields `get_user_profile` reads from `GET /users/{username}`. -/
structure RawProfile where
  email : Option String
  blog : Option String
  location : Option String
  name : Option String
  bio : Option String
  company : Option String
  twitter_username : Option String
  public_repos : Nat
  followers : Nat
  following : Nat
  created_at : Option String
  updated_at : Option String
deriving DecidableEq

/-- `GitHubAPIClient.get_user_profile`: the response body on success, `none`
on a non-200 response (the Python function returns the empty dict `{}`).
On success every field is passed through except `blog`, which is cleaned. -/
def get_user_profile (resp : Option RawProfile) : Option RawProfile :=
  match resp with
  | none => none
  | some d => some { d with blog := clean_blog_url d.blog }

/-! ## `github_api.py` — commit-email discovery

The remote state a single user's email search can observe, as one
environment value:

* `ownRepos`    — `GET /users/{u}/repos?sort=created&direction=asc&type=all`
                  (`none` models a non-200 response), full names, oldest first;
* `recentRepos` — the same endpoint with `sort=updated&direction=desc&type=owner`;
* `commitsOf`   — per repository, `GET /repos/{r}/commits?author={u}&per_page=10`
                  (`none` models a non-200 response), newest first, and for each
                  commit the author email its detail lookup yields (`none` when
                  that nested lookup fails or the field is missing). -/

structure ApiEnv where
  ownRepos : Option (List String)
  recentRepos : Option (List String)
  commitsOf : String → Option (List (Option String))

/-- `GitHubAPIClient._extract_email_from_repo_commits`: walk the user's
commits in `repo_name` oldest first and return the first author email passing
`is_valid_email`. -/
def extract_email_from_repo_commits (api : ApiEnv) (repo_name : String) : Option String :=
  match api.commitsOf repo_name with
  | none => none
  | some commits =>
    if commits = [] then none
    else
      commits.reverse.findSome? (fun e? =>
        match e? with
        | some e => if is_valid_email e then some e else none
        | none => none)

/-- `GitHubAPIClient.get_commit_email_from_repo`: check at most the first 10
oldest-created repositories (the loop breaks after index 9); only when none
yields an email, check at most 5 of the most recently updated owned
repositories.  Any fetch failure or exhaustion gives `none`, never an error. -/
def get_commit_email_from_repo (api : ApiEnv) : Option String :=
  match api.ownRepos with
  | none => none
  | some repos =>
    if repos = [] then none
    else
      match (repos.take 10).findSome? (extract_email_from_repo_commits api) with
      | some e => some e
      | none =>
        match api.recentRepos with
        | none => none
        | some recents => (recents.take 5).findSome? (extract_email_from_repo_commits api)

/-- The pinned-repository fallback of `GitHubCrawler.filter_contributors_for_repo`:
only when `get_commit_email_from_repo` returned `None`, try each pinned
repository in order with `_extract_email_from_repo_commits`. -/
def crawlerCommitEmail (api : ApiEnv) (pinned : List String) : Option String :=
  match get_commit_email_from_repo api with
  | some e => some e
  | none => pinned.findSome? (extract_email_from_repo_commits api)

/-- First-success chaining of two strategies (`a` wins when it found an email). -/
def ochain (a b : Option String) : Option String :=
  match a with
  | some e => some e
  | none => b

/-! ## `crawler.py` — `filter_contributors_for_repo`

The per-repository pipeline: list contributors, keep those with at least
`min_repo_contributions` repository-scoped contributions, and for each
survivor look up its yearly contributions; those clearing
`min_yearly_contributions` get a profile fetch and the commit-email search
and become an enriched record.  Besides the records the model returns the
trace of per-user remote lookups actually performed, in order, so that
"never reaches email discovery" is a provable statement. -/

structure RepoContributor where
  login : String
  contributions : Nat
  html_url : String
deriving DecidableEq

/-- One per-user remote lookup performed by the pipeline. -/
inductive CallEvent where
  | yearlyLookup (u : String)
  | profileFetch (u : String)
  | emailSearch (u : String)
deriving DecidableEq

/-- The username a lookup was performed for. -/
def eventUser : CallEvent → String
  | .yearlyLookup u => u
  | .profileFetch u => u
  | .emailSearch u => u

/-- The remote world of one repository scan. -/
structure CrawlEnv where
  contributorsOf : List RepoContributor
  yearlyOf : String → Nat
  profileOf : String → Option RawProfile
  apiOf : String → ApiEnv
  pinnedOf : String → List String

/-- The enriched record `filter_contributors_for_repo` appends
(`profile.get(key, default)` on the cleaned profile dict; missing profile
fields default to the empty string / zero). -/
structure Record where
  repo_url : String
  repo_name : String
  username : String
  repo_contributions : Nat
  yearly_contributions : Nat
  profile_url : String
  name : String
  email : String
  commit_email : String
  website : String
  location : String
  company : String
  twitter : String
  bio : String
  public_repos : Nat
  followers : Nat
  following : Nat
  account_created : String
deriving DecidableEq

/-- `profile.get(key, '')` on the (possibly empty) profile dict. -/
def profGetS (p : Option RawProfile) (f : RawProfile → Option String) : String :=
  match p with
  | none => ""
  | some d => (f d).getD ""

/-- `profile.get(key, 0)` on the (possibly empty) profile dict. -/
def profGetN (p : Option RawProfile) (f : RawProfile → Nat) : Nat :=
  match p with
  | none => 0
  | some d => f d

/-- Assemble the enriched record of one qualified contributor. -/
def mkRecord (repo_url repo_name : String) (c : RepoContributor) (yearly : Nat)
    (profile : Option RawProfile) (commit_email : Option String) : Record :=
  { repo_url := repo_url
    repo_name := repo_name
    username := c.login
    repo_contributions := c.contributions
    yearly_contributions := yearly
    profile_url := c.html_url
    name := profGetS profile (·.name)
    email := profGetS profile (·.email)
    commit_email := commit_email.getD ""
    website := profGetS profile (·.blog)
    location := profGetS profile (·.location)
    company := profGetS profile (·.company)
    twitter := profGetS profile (·.twitter_username)
    bio := profGetS profile (·.bio)
    public_repos := profGetN profile (·.public_repos)
    followers := profGetN profile (·.followers)
    following := profGetN profile (·.following)
    account_created := profGetS profile (·.created_at) }

/-- The main loop over the contributors that cleared the repo-contribution
threshold: yearly lookup always; profile fetch, email search and the record
only when the yearly threshold is also cleared. -/
def processHigh (env : CrawlEnv) (repo_url repo_name : String) (minYearly : Nat) :
    List RepoContributor → List Record × List CallEvent
  | [] => ([], [])
  | c :: rest =>
    let y := env.yearlyOf c.login
    let tail := processHigh env repo_url repo_name minYearly rest
    if minYearly ≤ y then
      let profile := get_user_profile (env.profileOf c.login)
      let ce := crawlerCommitEmail (env.apiOf c.login) (env.pinnedOf c.login)
      (mkRecord repo_url repo_name c y profile ce :: tail.1,
       CallEvent.yearlyLookup c.login :: CallEvent.profileFetch c.login ::
         CallEvent.emailSearch c.login :: tail.2)
    else
      (tail.1, CallEvent.yearlyLookup c.login :: tail.2)

/-- `GitHubCrawler.filter_contributors_for_repo`: parse the URL (invalid URLs
yield no work at all), filter by `contributions >= min_repo_contributions`,
then run the per-contributor stage. -/
def filter_contributors_for_repo (env : CrawlEnv) (repo_url : String)
    (minRepo minYearly : Nat) : List Record × List CallEvent :=
  match parse_repo_url repo_url with
  | none => ([], [])
  | some (owner, repo) =>
    let high := env.contributorsOf.filter (fun c => decide (minRepo ≤ c.contributions))
    processHigh env repo_url (owner ++ "/" ++ repo) minYearly high

/-! ## Auxiliary lemmas -/

/-- A string containing a `/` separator is never empty. -/
theorem slashJoin_ne_empty (a b : String) : a ++ "/" ++ b ≠ "" := by
  intro h
  have hlen := congrArg String.length h
  simp [String.length_append] at hlen
  exact absurd hlen.1.2 (by decide)

/-! ## C6 — email validity filter -/

/-- C6: `is_valid_email` accepts exactly the candidates that contain none of
the configured fake substrings (checked on the lowercased email, as the code
does), contain an `@`, and contain a `.` after the last `@`; of the two
sample candidates only the second is accepted. -/
theorem c6_email_validity_filter :
    (∀ e : String,
      is_valid_email e = true ↔
        ((∀ p ∈ FAKE_EMAIL_PATTERNS, strHasSub (pyLower e).data p.data = false)
          ∧ e.data.contains '@' = true
          ∧ (afterLastAt e).data.contains '.' = true))
    ∧ is_valid_email "noreply@users.noreply.github.com" = false
    ∧ is_valid_email "real.person@gmail.com" = true := by
  refine ⟨fun e => ?_, by decide, by decide⟩
  unfold is_valid_email
  by_cases h0 : e = ""
  · subst h0
    rw [if_pos rfl]
    constructor
    · intro h
      simp at h
    · rintro ⟨-, h, -⟩
      exact absurd h (by decide)
  · rw [if_neg h0]
    cases hany : FAKE_EMAIL_PATTERNS.any (fun p => strHasSub (pyLower e).data p.data)
    · rw [if_neg (by simp)]
      rw [List.any_eq_false] at hany
      simp only [Bool.and_eq_true]
      constructor
      · rintro ⟨h1, h2⟩
        exact ⟨fun p hp => by simpa using hany p hp, h1, h2⟩
      · rintro ⟨-, h1, h2⟩
        exact ⟨h1, h2⟩
    · rw [if_pos rfl]
      constructor
      · intro h
        simp at h
      · rintro ⟨hall, -, -⟩
        rw [List.any_eq_true] at hany
        obtain ⟨p, hp, hsub⟩ := hany
        rw [hall p hp] at hsub
        exact absurd hsub (by simp)

/-! ## C3 — concrete merge example -/

/-- C3: with the target file holding `alice` and `bob` and the batch holding
`bob` and `carol`, the merged sheet is exactly `alice`, `bob` (the
pre-existing row, unchanged — the batch's differing `bob` row is discarded)
and `carol`, and the `Duplicates Filtered` sheet lists exactly `bob`. -/
theorem c3_merge_concrete :
    save_to_excel true [⟨"alice", ["row-A"]⟩, ⟨"bob", ["row-B-old"]⟩] []
        [⟨"bob", ["row-B-new"]⟩, ⟨"carol", ["row-C"]⟩] "out.xlsx"
      = SaveOutcome.excel "out.xlsx"
          [⟨"alice", ["row-A"]⟩, ⟨"bob", ["row-B-old"]⟩, ⟨"carol", ["row-C"]⟩]
          (some ["bob"]) := by decide

/-! ## C10 — blog URL normalisation and empty profile -/

/-- The spec's notion of "has a URL scheme": the value starts with
`scheme ++ "://"` for a non-empty alphabetic scheme name.  This definition
follows the specification's words, for comparison with the code's
`startswith('http')` test. -/
def specHasUrlScheme (s : String) : Bool :=
  match splitOnSchemeSep s.data with
  | p :: _ :: _ => decide (p ≠ []) && p.all (fun c => c.isAlpha)
  | _ => false

/-- C10 counterexample: `ftp://myblog.org` has a URL scheme, yet
`clean_blog_url` does not return it unchanged — it prefixes `https://`
because the value does not start with `http`.  The claim's "returned
unchanged when it already has a scheme" is therefore false as stated. -/
theorem c10_counterexample :
    specHasUrlScheme "ftp://myblog.org" = true
    ∧ clean_blog_url (some "ftp://myblog.org") ≠ some "ftp://myblog.org" := by decide

/-- C10 amended: a missing profile response yields the empty record; on
success every field is passed through with `blog` cleaned; and the blog value
is prefixed with `https://` exactly when it is non-empty and does not start
with `"http"` (the code's test, rather than true scheme detection), with
empty and absent values passed through. -/
theorem c10_blog_and_profile :
    get_user_profile none = none
    ∧ (∀ d : RawProfile,
        get_user_profile (some d) = some { d with blog := clean_blog_url d.blog })
    ∧ (∀ b : String, b ≠ "" → leadsWith "http".data b.data = false →
        clean_blog_url (some b) = some ("https://" ++ b))
    ∧ (∀ b : String, leadsWith "http".data b.data = true →
        clean_blog_url (some b) = some b)
    ∧ clean_blog_url (some "") = some ""
    ∧ clean_blog_url none = none := by
  refine ⟨rfl, fun d => rfl, fun b h1 h2 => ?_, fun b h => ?_, by decide, rfl⟩
  · simp [clean_blog_url, h1, h2]
  · simp [clean_blog_url, h]

/-- C10 witness: the amended theorem applied to a schemeless value and to an
`http`-prefixed value. -/
theorem c10_witness :
    clean_blog_url (some "myblog.org") = some "https://myblog.org"
    ∧ clean_blog_url (some "https://a.b") = some "https://a.b" :=
  ⟨c10_blog_and_profile.2.2.1 "myblog.org" (by decide) (by decide),
   c10_blog_and_profile.2.2.2.1 "https://a.b" (by decide)⟩

/-! ## C4 — README self-reference exclusion -/

/-- C4 counterexample: the comparison in `get_list_of_repo_urls_from_readme`
lowercases only the parsed link, not the `owner/repo` argument, so with the
seed named `Alice/Proj` the self-reference parses to exactly the seed yet is
returned rather than excluded. -/
theorem c4_counterexample :
    "https://github.com/Alice/Proj" ∈
        get_list_of_repo_urls_from_readme
          "https://github.com/Alice/Proj https://github.com/xx/aa https://github.com/yy/bb"
          "Alice" "Proj"
    ∧ parse_repo_url "https://github.com/Alice/Proj" = some ("Alice", "Proj") := by decide

/-- C4 amended: for a README whose found repository links are exactly a link
to A, a link to B and a self-reference to the seed, the function returns
exactly the links to A and B, provided the lowercased parsed names of A and B
differ from the literal `owner ++ "/" ++ repo` argument and the lowercased
self-reference equals it (guaranteed when the seed argument is lowercase). -/
theorem c4_readme_extraction (readme owner repo uA uB uS oA nA oB nB oS nS : String)
    (hfind : findall_github_urls readme = [uA, uB, uS])
    (hA : parse_repo_url uA = some (oA, nA))
    (hB : parse_repo_url uB = some (oB, nB))
    (hS : parse_repo_url uS = some (oS, nS))
    (hAex : pyLower (oA ++ "/" ++ nA) ≠ owner ++ "/" ++ repo)
    (hBex : pyLower (oB ++ "/" ++ nB) ≠ owner ++ "/" ++ repo)
    (hSin : pyLower (oS ++ "/" ++ nS) = owner ++ "/" ++ repo) :
    get_list_of_repo_urls_from_readme readme owner repo = [uA, uB] := by
  unfold get_list_of_repo_urls_from_readme
  rw [hfind]
  simp only [List.filter, hA, hB, hS, hSin]
  rw [decide_eq_true (slashJoin_ne_empty oA nA), decide_eq_true hAex,
    decide_eq_true (slashJoin_ne_empty oB nB), decide_eq_true hBex,
    decide_eq_true (slashJoin_ne_empty oS nS),
    show decide (owner ++ "/" ++ repo ≠ owner ++ "/" ++ repo) = false by simp]
  rfl

/-- C4 witness: the amended theorem applied to a concrete README holding two
external links and a lowercase self-reference. -/
theorem c4_readme_extraction_witness :
    get_list_of_repo_urls_from_readme
        "https://github.com/aa/x1 https://github.com/bb/x2 https://github.com/own/rep"
        "own" "rep"
      = ["https://github.com/aa/x1", "https://github.com/bb/x2"] :=
  c4_readme_extraction
    "https://github.com/aa/x1 https://github.com/bb/x2 https://github.com/own/rep"
    "own" "rep" "https://github.com/aa/x1" "https://github.com/bb/x2"
    "https://github.com/own/rep" "aa" "x1" "bb" "x2" "own" "rep"
    (by decide) (by decide) (by decide) (by decide) (by decide) (by decide) (by decide)

/-! ## Deduplication lemmas for the merge -/

/-- Membership in the usernames of a deduplicated list: present in the input
and not among the already-seen usernames. -/
theorem mem_dedupGo_map (u : String) (seen : List String) (l : List XRow) :
    u ∈ (dedupGo seen l).map XRow.username ↔ u ∈ l.map XRow.username ∧ u ∉ seen := by
  induction l generalizing seen with
  | nil => simp [dedupGo]
  | cons r rows ih =>
    by_cases h : r.username ∈ seen
    · rw [dedupGo, if_pos h, ih]
      constructor
      · rintro ⟨hm, hns⟩
        exact ⟨by simp [hm], hns⟩
      · rintro ⟨hm, hns⟩
        rcases (by simpa using hm : u = r.username ∨ u ∈ rows.map XRow.username) with he | hm'
        · exact absurd (he ▸ h) hns
        · exact ⟨hm', hns⟩
    · rw [dedupGo, if_neg h]
      simp only [List.map_cons, List.mem_cons, ih]
      constructor
      · rintro (he | ⟨hm, hns⟩)
        · exact ⟨Or.inl he, he ▸ h⟩
        · exact ⟨Or.inr hm, fun hu => hns (by simp [hu])⟩
      · rintro ⟨he | hm, hns⟩
        · exact Or.inl he
        · by_cases hue : u = r.username
          · exact Or.inl hue
          · refine Or.inr ⟨hm, ?_⟩
            simp only [List.mem_cons, not_or]
            exact ⟨hue, hns⟩

/-- The usernames of a deduplicated list are pairwise distinct. -/
theorem nodup_dedupGo (seen : List String) (l : List XRow) :
    ((dedupGo seen l).map XRow.username).Nodup := by
  induction l generalizing seen with
  | nil => simp [dedupGo]
  | cons r rows ih =>
    by_cases h : r.username ∈ seen
    · rw [dedupGo, if_pos h]
      exact ih seen
    · rw [dedupGo, if_neg h]
      simp only [List.map_cons, List.nodup_cons]
      refine ⟨fun hm => ?_, ih _⟩
      exact ((mem_dedupGo_map _ _ _).mp hm).2 (by simp)

/-- Deduplication is the identity on a list whose usernames are already
distinct and disjoint from `seen`. -/
theorem dedupGo_eq_self (seen : List String) (l : List XRow)
    (hd : (l.map XRow.username).Nodup) (hs : ∀ r ∈ l, r.username ∉ seen) :
    dedupGo seen l = l := by
  induction l generalizing seen with
  | nil => rfl
  | cons r rows ih =>
    rw [dedupGo, if_neg (hs r (by simp))]
    congr 1
    simp only [List.map_cons, List.nodup_cons] at hd
    refine ih _ hd.2 ?_
    intro x hx
    simp only [List.mem_cons, not_or]
    exact ⟨fun he => hd.1 (he ▸ List.mem_map_of_mem XRow.username hx),
      hs x (List.mem_cons_of_mem r hx)⟩

/-- Membership in a fully deduplicated row list's usernames. -/
theorem mem_dedupByUsername_map (u : String) (l : List XRow) :
    u ∈ (dedupByUsername l).map XRow.username ↔ u ∈ l.map XRow.username := by
  rw [dedupByUsername, mem_dedupGo_map]
  simp

/-- `dedupByUsername` always produces pairwise-distinct usernames. -/
theorem nodup_dedupByUsername (l : List XRow) :
    ((dedupByUsername l).map XRow.username).Nodup :=
  nodup_dedupGo [] l

/-- `dedupByUsername` is the identity on already-deduplicated lists. -/
theorem dedupByUsername_eq_self (l : List XRow) (hd : (l.map XRow.username).Nodup) :
    dedupByUsername l = l :=
  dedupGo_eq_self [] l hd (by simp)

/-- A non-empty batch stays non-empty under deduplication. -/
theorem dedupByUsername_ne_nil (l : List XRow) (h : l ≠ []) :
    dedupByUsername l ≠ [] := by
  cases l with
  | nil => exact absurd rfl h
  | cons r rows =>
    rw [dedupByUsername, dedupGo, if_neg (by simp)]
    simp

/-! ## C1 — username uniqueness of every persisted row set -/

/-- C1: whatever row set the target file already holds (any history of prior
runs, or even a file with duplicated rows), whatever usernames the directory
scan collected, and whatever the batch contains, any `All Contributors` row
set `save_to_excel` actually writes — workbook or CSV fallback alike — has
pairwise-distinct usernames, thanks to the final safety deduplication. -/
theorem c1_username_unique (writeOk : Bool) (existing : List XRow)
    (dirUsers : List String) (batch : List XRow) (filename : String) (rows : List XRow)
    (h : writtenRows (save_to_excel writeOk existing dirUsers batch filename) = some rows) :
    (rows.map XRow.username).Nodup := by
  unfold save_to_excel at h
  by_cases hb : batch = []
  · rw [if_pos hb] at h
    exact absurd h (by simp [writtenRows])
  · rw [if_neg hb] at h
    cases writeOk with
    | true =>
      rw [if_pos rfl] at h
      simp only [writtenRows, Option.some.injEq] at h
      rw [← h]
      exact nodup_dedupByUsername _
    | false =>
      rw [if_neg (by simp)] at h
      simp only [writtenRows, Option.some.injEq] at h
      rw [← h]
      exact nodup_dedupByUsername _

/-- C1 witness: a concrete run whose written rows have distinct usernames. -/
theorem c1_username_unique_witness :
    writtenRows (save_to_excel true [⟨"a", []⟩] [] [⟨"a", ["dup"]⟩, ⟨"b", []⟩] "f.xlsx")
        = some [⟨"a", []⟩, ⟨"b", []⟩]
    ∧ (([⟨"a", []⟩, ⟨"b", []⟩] : List XRow).map XRow.username).Nodup :=
  ⟨by decide,
   c1_username_unique true [⟨"a", []⟩] [] [⟨"a", ["dup"]⟩, ⟨"b", []⟩] "f.xlsx"
     [⟨"a", []⟩, ⟨"b", []⟩] (by decide)⟩

/-! ## C2 — idempotence of the merge -/

/-- Every username of the deduplicated batch ends up either in `dirUsers` or
among the usernames of the combined result of the run: nothing admissible is
forgotten, everything else was already excluded. -/
theorem saveCore_absorbs (store : List XRow) (dirUsers : List String) (batch : List XRow)
    (u : String) (hu : u ∈ (dedupByUsername batch).map XRow.username) :
    u ∈ dirUsers ++ ((saveCore store dirUsers batch).1).map XRow.username := by
  unfold saveCore
  simp only [List.mem_append, mem_dedupByUsername_map, List.map_append]
  by_cases hex : u ∈ dirUsers ++ store.map XRow.username
  · rcases List.mem_append.mp hex with hd | hs
    · exact Or.inl hd
    · exact Or.inr (Or.inl hs)
  · refine Or.inr (Or.inr ?_)
    obtain ⟨r, hr, hru⟩ := List.mem_map.mp hu
    have hrx : ¬(r.username ∈ dirUsers ∨ r.username ∈ List.map (fun x => x.username) store) := by
      rw [hru]
      simpa using hex
    split
    · exact hru ▸ List.mem_map_of_mem XRow.username hr
    · exact hru ▸ List.mem_map_of_mem XRow.username
        (List.mem_filter.mpr ⟨hr, decide_eq_true hrx⟩)

/-- C2: applying `save_to_excel` a second time with the unchanged batch (and
the unchanged directory scan) to the target file the first application
produced changes nothing: every username of the batch is by then known, the
whole batch is rejected as duplicate, and the combined row set is exactly the
stored one — the merge adds zero net new rows (idempotence). -/
theorem c2_merge_idempotent (dirUsers : List String) (store batch : List XRow) :
    runStore dirUsers (runStore dirUsers store batch) batch
      = runStore dirUsers store batch := by
  by_cases hb : batch = []
  · simp [runStore, hb]
  · unfold runStore
    simp only [hb, if_false]
    set S := (saveCore store dirUsers batch).1 with hS
    have hSnodup : (S.map XRow.username).Nodup := nodup_dedupByUsername _
    have habs : ∀ v ∈ (dedupByUsername batch).map XRow.username,
        v ∈ dirUsers ++ S.map XRow.username := by
      intro v hv
      exact hS ▸ saveCore_absorbs store dirUsers batch v hv
    conv_lhs => unfold saveCore
    have hdups : List.filter (fun u => decide (u ∈ dirUsers ++ List.map (fun x => x.username) S))
        (List.map (fun x => x.username) (dedupByUsername batch))
        = List.map (fun x => x.username) (dedupByUsername batch) :=
      List.filter_eq_self.mpr (fun v hv => decide_eq_true (habs v hv))
    have hne : List.map (fun x : XRow => x.username) (dedupByUsername batch) ≠ [] := by
      simpa using dedupByUsername_ne_nil batch hb
    have hfil : List.filter (fun r => decide (r.username ∉ dirUsers ++ List.map (fun x => x.username) S))
        (dedupByUsername batch) = [] :=
      List.filter_eq_nil_iff.mpr (fun r hr => by
        simp only [decide_eq_true_eq, not_not]
        exact habs r.username (List.mem_map_of_mem XRow.username hr))
    simp only [hdups, hfil, hne, if_false, List.append_nil]
    exact dedupByUsername_eq_self S hSnodup

/-! ## C9 — CSV fallback on persistence failure -/

/-- A character other than `.` can never open the pattern `.xlsx`, so the
replacement walks past it unchanged. -/
theorem replaceXlsxChars_cons_ne (c : Char) (l : List Char) (hc : c ≠ '.') :
    replaceXlsxChars (c :: l) = c :: replaceXlsxChars l := by
  conv_lhs => rw [replaceXlsxChars.eq_def]
  split
  · rename_i rest heq
    rw [List.cons.injEq] at heq
    exact absurd heq.1 hc
  · rename_i c2 cs2 hno heq
    injection heq with h1 h2
    rw [← h1, ← h2]
  · rename_i heq
    exact (List.cons_ne_nil c l heq).elim

/-- `replace('.xlsx', '_backup.csv')` on a name of the form
`base ++ ".xlsx"` with a dot-free base replaces exactly the extension. -/
theorem replaceXlsxChars_append_xlsx (b : List Char) (hb : '.' ∉ b) :
    replaceXlsxChars (b ++ ".xlsx".data) = b ++ "_backup.csv".data := by
  induction b with
  | nil => decide
  | cons c cs ih =>
    have hc : c ≠ '.' := fun h => hb (h ▸ List.mem_cons_self c cs)
    rw [List.cons_append, replaceXlsxChars_cons_ne c _ hc,
      ih (fun h => hb (List.mem_cons_of_mem c h)), List.cons_append]

/-- C9: when the multi-sheet write raises, `save_to_excel` writes the full
combined, deduplicated record set — the very rows the workbook would have
held, so nothing computed during the run is discarded — to a CSV file named
`base ++ "_backup.csv"`, a name distinct from the primary `base ++ ".xlsx"`
target (stated for extension-only dots, as in the default filename). -/
theorem c9_csv_fallback (existing : List XRow) (dirUsers : List String) (batch : List XRow)
    (base : String) (hbatch : batch ≠ []) (hbase : '.' ∉ base.data) :
    save_to_excel false existing dirUsers batch (base ++ ".xlsx")
      = SaveOutcome.csvFallback (base ++ "_backup.csv") (saveCore existing dirUsers batch).1
    ∧ base ++ "_backup.csv" ≠ base ++ ".xlsx" := by
  constructor
  · unfold save_to_excel
    rw [if_neg hbatch, if_neg (by simp)]
    congr 1
    cases base with
    | mk l =>
      show csvName (String.mk l ++ ".xlsx") = String.mk l ++ "_backup.csv"
      have h1 : String.mk l ++ ".xlsx" = String.mk (l ++ ".xlsx".data) := rfl
      have h2 : String.mk l ++ "_backup.csv" = String.mk (l ++ "_backup.csv".data) := rfl
      rw [h1, h2]
      unfold csvName
      exact congrArg String.mk (replaceXlsxChars_append_xlsx l hbase)
  · intro h
    have hlen := congrArg String.length h
    rw [String.length_append, String.length_append] at hlen
    have e1 : ("_backup.csv" : String).length = 11 := rfl
    have e2 : (".xlsx" : String).length = 5 := rfl
    omega

/-- C9 witness: a concrete failing write falling back to `out_backup.csv`. -/
theorem c9_csv_fallback_witness :
    save_to_excel false [] [] [⟨"u", []⟩] ("out" ++ ".xlsx")
      = SaveOutcome.csvFallback ("out" ++ "_backup.csv") (saveCore [] [] [⟨"u", []⟩]).1
    ∧ "out" ++ "_backup.csv" ≠ "out" ++ ".xlsx" :=
  c9_csv_fallback [] [] [⟨"u", []⟩] "out" (by decide) (by decide)

/-! ## C5 — email discovery strategy order -/


/-- The second strategy of `get_commit_email_from_repo` as the source runs it:
at most 5 of the most recently updated owned repositories, `none` when their
fetch failed. -/
def recentStage (api : ApiEnv) : Option String :=
  match api.recentRepos with
  | none => none
  | some rs => (rs.take 5).findSome? (extract_email_from_repo_commits api)

/-- C5: on a responsive repo listing (and granting that a user with no
repositories at all has no recently-updated owned repositories either — the
code skips stage 2 entirely in that case), email discovery equals the
first-success chain: first at most 10 oldest-created own repositories, then —
only if that found nothing — at most 5 recently-updated owned repositories,
then — only if that found nothing — the pinned repositories; and when every
strategy is exhausted the result is `none`, not an error. -/
theorem c5_email_strategy_chain (api : ApiEnv) (pinned : List String) (repos : List String)
    (hown : api.ownRepos = some repos)
    (hempty : repos = [] → recentStage api = none) :
    crawlerCommitEmail api pinned
      = ochain ((repos.take 10).findSome? (extract_email_from_repo_commits api))
          (ochain (recentStage api)
            (pinned.findSome? (extract_email_from_repo_commits api)))
    ∧ (((repos.take 10).findSome? (extract_email_from_repo_commits api) = none
        ∧ recentStage api = none
        ∧ pinned.findSome? (extract_email_from_repo_commits api) = none) →
       crawlerCommitEmail api pinned = none) := by
  have main : crawlerCommitEmail api pinned
      = ochain ((repos.take 10).findSome? (extract_email_from_repo_commits api))
          (ochain (recentStage api)
            (pinned.findSome? (extract_email_from_repo_commits api))) := by
    unfold crawlerCommitEmail get_commit_email_from_repo
    simp only [hown]
    by_cases hr : repos = []
    · rw [if_pos hr, hempty hr, hr]
      simp [ochain]
    · rw [if_neg hr]
      cases hs1 : (repos.take 10).findSome? (extract_email_from_repo_commits api) with
      | some e => simp [ochain]
      | none =>
        simp only [ochain]
        unfold recentStage
        cases hrec : api.recentRepos with
        | none => rfl
        | some rs =>
          cases hs2 : (rs.take 5).findSome? (extract_email_from_repo_commits api) with
          | some e => rfl
          | none => rfl
  refine ⟨main, fun ⟨h1, h2, h3⟩ => ?_⟩
  rw [main, h1, h2, h3]
  rfl

/-- No lookup and no record of the per-contributor stage mentions a username
absent from its input list. -/
theorem processHigh_avoids (env : CrawlEnv) (repo_url repo_name : String) (minYearly : Nat)
    (u : String) (l : List RepoContributor) (h : ∀ c ∈ l, c.login ≠ u) :
    u ∉ ((processHigh env repo_url repo_name minYearly l).2.map eventUser)
    ∧ u ∉ ((processHigh env repo_url repo_name minYearly l).1.map Record.username) := by
  induction l with
  | nil => simp [processHigh]
  | cons c rest ih =>
    have hc : c.login ≠ u := h c (List.mem_cons_self c rest)
    have ihr := ih (fun x hx => h x (List.mem_cons_of_mem c hx))
    rw [processHigh]
    by_cases hy : minYearly ≤ env.yearlyOf c.login
    · rw [if_pos hy]
      constructor
      · simp only [List.map_cons, List.mem_cons, eventUser, not_or]
        exact ⟨fun he => hc he.symm, fun he => hc he.symm, fun he => hc he.symm, ihr.1⟩
      · simp only [List.map_cons, List.mem_cons, not_or, mkRecord]
        exact ⟨fun he => hc he.symm, ihr.2⟩
    · rw [if_neg hy]
      constructor
      · simp only [List.map_cons, List.mem_cons, eventUser, not_or]
        exact ⟨fun he => hc he.symm, ihr.1⟩
      · exact ihr.2

/-- C7: a contributor all of whose listing entries fall below the
repo-contribution threshold never reaches email discovery: no yearly lookup,
no profile fetch and no commit-email search is performed on its behalf during
the run, and no record of the run's results carries its username — it is
excluded for the whole run. -/
theorem c7_below_threshold_no_discovery (env : CrawlEnv) (repo_url : String)
    (minRepo minYearly : Nat) (u : String)
    (hlow : ∀ c ∈ env.contributorsOf, c.login = u → c.contributions < minRepo) :
    u ∉ ((filter_contributors_for_repo env repo_url minRepo minYearly).2.map eventUser)
    ∧ u ∉ ((filter_contributors_for_repo env repo_url minRepo minYearly).1.map Record.username) := by
  unfold filter_contributors_for_repo
  cases hp : parse_repo_url repo_url with
  | none => simp
  | some pr =>
    cases pr with
    | mk owner repo =>
      apply processHigh_avoids
      intro c hcmem hlogin
      have hmem := List.mem_filter.mp hcmem
      have hge : minRepo ≤ c.contributions := by simpa using hmem.2
      exact absurd hge (Nat.not_le.mpr (hlow c hmem.1 hlogin))

theorem scanEvents_append (cutoff : Int) (a b : List EventRec) (acc : Nat) :
    scanEvents cutoff (a ++ b) acc
      = (if (scanEvents cutoff a acc).2 then scanEvents cutoff a acc
         else scanEvents cutoff b (scanEvents cutoff a acc).1) := by
  induction a generalizing acc with
  | nil => simp [scanEvents]
  | cons e rest ih =>
    rw [List.cons_append, scanEvents, scanEvents]
    by_cases hp : e.typ = "PushEvent"
    · rw [if_pos hp, if_pos hp]
      by_cases hw : cutoff ≤ e.created_at
      · rw [if_pos hw, if_pos hw, ih]
      · rw [if_neg hw, if_neg hw]
        simp
    · rw [if_neg hp, if_neg hp, ih]

theorem scanEvents_fst_all_old (cutoff : Int) (es : List EventRec) (acc : Nat)
    (h : ∀ e ∈ es, e.created_at < cutoff) :
    (scanEvents cutoff es acc).1 = acc := by
  induction es generalizing acc with
  | nil => rfl
  | cons e rest ih =>
    rw [scanEvents]
    have he := h e (List.mem_cons_self e rest)
    by_cases hp : e.typ = "PushEvent"
    · rw [if_pos hp, if_neg (by omega)]
    · rw [if_neg hp]
      exact ih acc (fun x hx => h x (List.mem_cons_of_mem e hx))

theorem scanPages_eq_stream (cutoff : Int) (pgs : List (List EventRec)) (acc : Nat) :
    scanPages cutoff pgs acc = (scanEvents cutoff (effStream pgs) acc).1 := by
  induction pgs generalizing acc with
  | nil => rfl
  | cons pg rest ih =>
    rw [scanPages, effStream]
    by_cases hpg : pg = []
    · rw [if_pos hpg, if_pos hpg]
      rfl
    · rw [if_neg hpg, if_neg hpg]
      show (if (scanEvents cutoff pg acc).2 = true then (scanEvents cutoff pg acc).1
            else scanPages cutoff rest (scanEvents cutoff pg acc).1)
          = (scanEvents cutoff (pg ++ effStream rest) acc).1
      rw [scanEvents_append]
      by_cases hstop : (scanEvents cutoff pg acc).2
      · rw [if_pos hstop, if_pos hstop]
      · rw [Bool.not_eq_true] at hstop
        rw [hstop]
        rw [if_neg (by simp), if_neg (by simp)]
        exact ih _

theorem newestFirst_tail (e : EventRec) (rest : List EventRec)
    (h : newestFirst (e :: rest) = true) :
    newestFirst rest = true ∧ ∀ x ∈ rest, x.created_at ≤ e.created_at := by
  induction rest generalizing e with
  | nil => exact ⟨rfl, by simp⟩
  | cons f rest2 ih =>
    rw [newestFirst, Bool.and_eq_true, decide_eq_true_eq] at h
    refine ⟨h.2, ?_⟩
    intro x hx
    rcases List.mem_cons.mp hx with he | hm
    · rw [he]
      exact h.1
    · exact le_trans ((ih f h.2).2 x hm) h.1

theorem pushSum_cons (cutoff : Int) (e : EventRec) (l : List EventRec) :
    pushSum cutoff (e :: l)
      = (if e.typ = "PushEvent" ∧ cutoff ≤ e.created_at then e.commitCount else 0)
        + pushSum cutoff l := by
  rw [pushSum, List.map_cons, List.sum_cons, pushSum]

theorem scanEvents_sorted (cutoff : Int) (es : List EventRec) (acc : Nat)
    (h : newestFirst es = true) :
    (scanEvents cutoff es acc).1
      = acc + pushSum cutoff (es.takeWhile (fun e => decide (cutoff ≤ e.created_at))) := by
  induction es generalizing acc with
  | nil => simp [scanEvents, pushSum]
  | cons e rest ih =>
    obtain ⟨hr, hall⟩ := newestFirst_tail e rest h
    rw [scanEvents, List.takeWhile]
    by_cases hw : cutoff ≤ e.created_at
    · rw [decide_eq_true hw, pushSum_cons]
      by_cases hp : e.typ = "PushEvent"
      · rw [if_pos hp, if_pos hw, ih _ hr, if_pos (And.intro hp hw)]
        omega
      · rw [if_neg hp, ih _ hr, if_neg (fun hand => hp hand.1)]
        omega
    · rw [show decide (cutoff ≤ e.created_at) = false from decide_eq_false hw]
      have hnil : pushSum cutoff ([] : List EventRec) = 0 := rfl
      rw [hnil, Nat.add_zero]
      by_cases hp : e.typ = "PushEvent"
      · rw [if_pos hp, if_neg hw]
      · rw [if_neg hp]
        exact scanEvents_fst_all_old cutoff rest acc
          (fun x hx => lt_of_le_of_lt (hall x hx) (by omega))

theorem scanEvents_le (cutoff : Int) (es : List EventRec) (acc : Nat) :
    (scanEvents cutoff es acc).1 ≤ acc + pushSum cutoff es := by
  induction es generalizing acc with
  | nil => simp [scanEvents, pushSum]
  | cons e rest ih =>
    rw [scanEvents]
    have hrec := ih (acc + e.commitCount)
    have hrec2 := ih acc
    have hcons : pushSum cutoff (e :: rest)
        = (if e.typ = "PushEvent" ∧ cutoff ≤ e.created_at then e.commitCount else 0)
          + pushSum cutoff rest := by
      rw [pushSum, List.map_cons, List.sum_cons, pushSum]
    by_cases hp : e.typ = "PushEvent"
    · rw [if_pos hp]
      by_cases hw : cutoff ≤ e.created_at
      · rw [if_pos hw, hcons, if_pos (And.intro hp hw)]
        omega
      · rw [if_neg hw, hcons]
        simp
    · rw [if_neg hp, hcons, if_neg (fun hand => hp hand.1)]
      omega

theorem scanPages_le (cutoff : Int) (pgs : List (List EventRec)) (acc : Nat) :
    scanPages cutoff pgs acc ≤ acc + ((pgs.map (pushSum cutoff)).sum) := by
  induction pgs generalizing acc with
  | nil => simp [scanPages]
  | cons pg rest ih =>
    rw [scanPages, List.map_cons, List.sum_cons]
    by_cases hpg : pg = []
    · rw [if_pos hpg]
      omega
    · rw [if_neg hpg]
      have h1 := scanEvents_le cutoff pg acc
      by_cases hstop : (scanEvents cutoff pg acc).2
      · rw [if_pos hstop]
        omega
      · rw [if_neg hstop]
        have h2 := ih (scanEvents cutoff pg acc).1
        omega

theorem pushSum_flatten (cutoff : Int) (pgs : List (List EventRec)) :
    pushSum cutoff pgs.flatten = (pgs.map (pushSum cutoff)).sum := by
  induction pgs with
  | nil => rfl
  | cons pg rest ih =>
    rw [List.flatten_cons, List.map_cons, List.sum_cons, pushSum, List.map_append,
      List.sum_append, ← ih]
    rfl

theorem map_sum_take_le (cutoff : Int) (pgs : List (List EventRec)) (n : Nat) :
    ((pgs.take n).map (pushSum cutoff)).sum ≤ (pgs.map (pushSum cutoff)).sum := by
  conv_rhs => rw [← List.take_append_drop n pgs]
  rw [List.map_append, List.sum_append]
  omega

/-- C8: for a public event feed in its native newest-first order, the scan
(1) looks at the first three pages only — the result is unchanged when the
feed is truncated to them; (2) returns exactly the commit total accumulated
up to the first event older than the cutoff (the in-window push total of the
stream's in-window prefix — the value the early `return` hands back); and
(3) never exceeds the true in-window push-commit total of the entire feed, so
it undercounts only. -/
theorem c8_events_undercount (cutoff : Int) (pages : List (List EventRec))
    (hchron : newestFirst (effStream (pages.take 3)) = true) :
    get_commits_from_events cutoff pages = get_commits_from_events cutoff (pages.take 3)
    ∧ get_commits_from_events cutoff pages
        = pushSum cutoff ((effStream (pages.take 3)).takeWhile
            (fun e => decide (cutoff ≤ e.created_at)))
    ∧ get_commits_from_events cutoff pages ≤ trueWindowCount cutoff pages := by
  refine ⟨?_, ?_, ?_⟩
  · unfold get_commits_from_events
    rw [List.take_take]
    norm_num
  · unfold get_commits_from_events
    rw [scanPages_eq_stream, scanEvents_sorted cutoff _ 0 hchron, Nat.zero_add]
  · unfold get_commits_from_events trueWindowCount
    calc scanPages cutoff (pages.take 3) 0
        ≤ 0 + ((pages.take 3).map (pushSum cutoff)).sum := scanPages_le cutoff _ 0
      _ ≤ (pages.map (pushSum cutoff)).sum := by
          rw [Nat.zero_add]
          exact map_sum_take_le cutoff pages 3
      _ = pushSum cutoff pages.flatten := (pushSum_flatten cutoff pages).symm

def pagesC8 : List (List EventRec) :=
  [[⟨"PushEvent", 10, 2⟩, ⟨"WatchEvent", 5, 0⟩, ⟨"PushEvent", -1, 7⟩]]

theorem c8_witness :
    newestFirst (effStream (pagesC8.take 3)) = true
    ∧ get_commits_from_events 0 pagesC8
        = pushSum 0 ((effStream (pagesC8.take 3)).takeWhile
            (fun e => decide ((0 : Int) ≤ e.created_at)))
    ∧ get_commits_from_events 0 pagesC8 ≤ trueWindowCount 0 pagesC8 :=
  ⟨by decide,
   (c8_events_undercount 0 pagesC8 (by decide)).2.1,
   (c8_events_undercount 0 pagesC8 (by decide)).2.2⟩

/-- Concrete remote world for the C5 witness: one own repository whose
commits carry a valid email. -/
def apiC5 : ApiEnv :=
  ⟨some ["r1"], some [], fun _ => some [some "a@b.c"]⟩

/-- C5 witness: the strategy-chain theorem applied to a concrete world. -/
theorem c5_email_strategy_chain_witness :
    apiC5.ownRepos = some ["r1"]
    ∧ crawlerCommitEmail apiC5 []
        = ochain ((["r1"].take 10).findSome? (extract_email_from_repo_commits apiC5))
            (ochain (recentStage apiC5)
              (List.findSome? (extract_email_from_repo_commits apiC5) [])) :=
  ⟨rfl, (c5_email_strategy_chain apiC5 [] ["r1"] rfl
      (fun h => absurd h (by decide))).1⟩

/-- Concrete remote world for the C7 witness: one contributor below and one
above the repo-contribution threshold. -/
def envC7 : CrawlEnv :=
  { contributorsOf := [⟨"lowuser", 3, "u"⟩, ⟨"highuser", 50, "u2"⟩]
    yearlyOf := fun _ => 1000
    profileOf := fun _ => none
    apiOf := fun _ => ⟨none, none, fun _ => none⟩
    pinnedOf := fun _ => [] }

/-- C7 witness: in a run where another contributor does qualify, no lookup and
no record is ever attributed to the below-threshold contributor. -/
theorem c7_below_threshold_witness :
    "lowuser" ∉
        ((filter_contributors_for_repo envC7 "https://github.com/o/r" 10 5).2.map eventUser)
    ∧ "lowuser" ∉
        ((filter_contributors_for_repo envC7 "https://github.com/o/r" 10 5).1.map
          Record.username) :=
  c7_below_threshold_no_discovery envC7 "https://github.com/o/r" 10 5 "lowuser" (by decide)
